import Mathlib

/-!
Verification of the `mop` OCR-correction pipeline.

This file gives a shallow embedding, in Lean 4, of the correction engine of
the repository (`parliamentary_ocr_corrector.py`, `frequency_based_corrector.py`,
`ocr_corrector_simple.py`, `discover_ocr_errors.py`) and proves properties of
that embedding.

Modelling conventions:
* Python strings are modelled as `List Char`; the Python `str` predicates
  (`isupper`, `islower`, `upper`, `lower`, `capitalize`, `rstrip`) are modelled
  for the ASCII letters, which is what the corpus tokens (`[A-Za-z]+`) contain.
* Python floats (the confidence scores, always small decimal literals combined
  by `+`, `*`, `/`, `min`, `max` in the source) are modelled exactly as `ℚ`.
* Python `dict`s are modelled as insertion-ordered association lists, and
  Python's stable `sorted(..., reverse=True)` as a stable insertion sort with
  the reversed comparison, matching CPython's documented semantics.
* Objects holding corpus-trained state (the enchant dictionary, the entity
  validator, the n-gram scorer object, the structural validator) are modelled
  as explicit function parameters; the functions written in the repository
  itself are embedded concretely.
-/

namespace Mop

/-- Python strings, modelled as lists of characters. -/
abbrev Str := List Char

/-- ASCII model of Python `str.isupper()`: at least one cased character and no
lower-case cased character. -/
def pyIsUpper (s : Str) : Bool :=
  s.any Char.isAlpha && s.all (fun c => !c.isLower)

/-- ASCII model of Python `str.islower()`: at least one cased character and no
upper-case cased character. -/
def pyIsLower (s : Str) : Bool :=
  s.any Char.isAlpha && s.all (fun c => !c.isUpper)

/-- ASCII model of Python `str.upper()`. -/
def pyUpper (s : Str) : Str := s.map Char.toUpper

/-- ASCII model of Python `str.lower()`. -/
def pyLower (s : Str) : Str := s.map Char.toLower

/-- ASCII model of Python `str.capitalize()`: first character upper-cased,
the rest lower-cased. -/
def pyCapitalize : Str → Str
  | [] => []
  | c :: cs => c.toUpper :: cs.map Char.toLower

/-- Python `str.rstrip(strip)`: remove trailing characters drawn from `strip`. -/
def pyRstrip (strip : Str) (s : Str) : Str :=
  (s.reverse.dropWhile (fun c => strip.contains c)).reverse

/-- The slice `text[a:b]` of a Python string (for `a ≤ b`; clamped like Python). -/
def sliceL (s : Str) (a b : ℕ) : Str := (s.drop a).take (b - a)

/-- A regex word character (`\w`), ASCII model: letter, digit or underscore. -/
def wordChar (c : Char) : Bool := c.isAlpha || c.isDigit || c == '_'

/-!  ### The tokenizer

All four source files tokenize with the same regular expression
`\b[A-Za-z]+\b` (`re.finditer`, `re.findall`, `re.sub`).  A match of that
pattern is a maximal run of ASCII letters whose neighbouring characters (when
they exist) are not word characters.  `runsR` splits a string into maximal
runs of equal alphabetic-ness, and `markRuns` marks each run that is a match
of the pattern. -/

/-- Split a string into maximal runs of characters, where consecutive
characters belong to the same run exactly when they agree on `Char.isAlpha`. -/
def runsR : Str → List Str
  | [] => []
  | c :: cs =>
    match runsR cs with
    | [] => [[c]]
    | s :: rs =>
      match s with
      | [] => [c] :: rs
      | d :: ds => if c.isAlpha == d.isAlpha then (c :: d :: ds) :: rs else [c] :: (d :: ds) :: rs

/-- Mark each run with whether it is a match of `\b[A-Za-z]+\b`: an alphabetic
run whose preceding character (`prev`) and following character (head of the
next run) are absent or not word characters. -/
def markRuns (prev : Option Char) : List Str → List (Bool × Str)
  | [] => []
  | s :: rest =>
    let isAlphaRun : Bool := match s with | d :: _ => d.isAlpha | [] => false
    let okLeft : Bool := match prev with | none => true | some p => !wordChar p
    let okRight : Bool :=
      match rest with
      | t :: _ => (match t with | d :: _ => !wordChar d | [] => true)
      | [] => true
    (isAlphaRun && okLeft && okRight, s) :: markRuns s.getLast? rest

/-- The segments of a string under the regex `\b[A-Za-z]+\b`: each segment is
a run of characters, flagged `true` exactly when it is a match. -/
def alphaSegs (t : Str) : List (Bool × Str) := markRuns none (runsR t)

/-- Concatenate segments back into a string. -/
def joinSegs (segs : List (Bool × Str)) : Str := segs.foldr (fun s acc => s.2 ++ acc) []

/-- Model of Python `re.sub(r'\b[A-Za-z]+\b', f, text)`: rewrite each matched
word through `f`, leaving all other characters untouched. -/
def pySubAlphaWords (f : Str → Str) (t : Str) : Str :=
  joinSegs ((alphaSegs t).map (fun s => if s.1 then (s.1, f s.2) else s))

/-- Matched words of the segments together with their character offsets. -/
def tokensFrom (off : ℕ) : List (Bool × Str) → List (Str × ℕ)
  | [] => []
  | s :: rest => (if s.1 then [(s.2, off)] else []) ++ tokensFrom (off + s.2.length) rest

/-- Model of `OCRCorrector._tokenize_with_positions` (`re.finditer` over
`\b[A-Za-z]+\b`): the matched words with their start offsets. -/
def tokenizeWithPositions (t : Str) : List (Str × ℕ) := tokensFrom 0 (alphaSegs t)

/-- Model of `re.findall(r'\b[A-Za-z]+\b', text)`: the matched words. -/
def tokensOf (t : Str) : List Str := (tokenizeWithPositions t).map Prod.fst

/-! ### Method 1: dictionary-based spell checking (`DictionaryChecker`) -/

/-- The read-only dictionary state of a `DictionaryChecker` after
`_load_dictionaries`: the preserved-spellings whitelist, the parliamentary
lexicon, the optional external modern dictionary (`enchant`), and the
historical word list (stored lower-cased by the loader). -/
structure DictState where
  preservedSpellings : List Str
  parliamentaryTerms : List Str
  modernDict : Option (Str → Bool)
  historicalWords : List Str

/-- The characters stripped from the end of a word by `check_word`. -/
def trailingPunctuation : Str := (".,;:!?—").data

/-- Model of `re.match(r'^\d+$', s)`: nonempty and all digits. -/
def isAllDigits (s : Str) : Bool := !s.isEmpty && s.all Char.isDigit

/-- Model of `re.match(r'^[IVXLCDM]+$', s)`: nonempty and all Roman-numeral
characters. -/
def isRomanNumeral (s : Str) : Bool :=
  !s.isEmpty && s.all (fun c => (("IVXLCDM").data).contains c)

/-- Embedding of `DictionaryChecker.check_word`. -/
def checkWord (D : DictState) (word : Str) : Bool :=
  if word.length < 2 then true
  else
    let clean := pyRstrip trailingPunctuation word
    if D.preservedSpellings.contains (pyLower clean) then true
    else if D.parliamentaryTerms.contains clean then true
    else if isAllDigits clean || isRomanNumeral clean then true
    else if (match D.modernDict with | some dict => dict clean | none => false) then true
    else if D.historicalWords.contains (pyLower clean) then true
    else false

/-- The word-validity predicate as described by the specification claim
(written from the claim's own words, for refinement comparison with
`checkWord`): step (2) and step (6) are case-insensitive memberships, step (3)
looks up the upper-cased form, and step (5) requires the modern dictionary to
accept the word both as-is and lower-cased. -/
def claimCheckWord (D : DictState) (word : Str) : Bool :=
  if word.length < 2 then true
  else
    let clean := pyRstrip trailingPunctuation word
    if D.preservedSpellings.any (fun s => pyLower s == pyLower clean) then true
    else if D.parliamentaryTerms.contains (pyUpper clean) then true
    else if isAllDigits clean || isRomanNumeral clean then true
    else if (match D.modernDict with
             | some dict => dict clean && dict (pyLower clean)
             | none => false) then true
    else if D.historicalWords.any (fun s => pyLower s == pyLower clean) then true
    else false

/-! ### Method 2: character confusion patterns (`ConfusionDetector`) -/

/-- Python `str.replace(pat, rep)` for nonempty `pat`: replace non-overlapping
occurrences left to right.  The recursion is driven by a fuel argument equal
to the length of the string so that the kernel can evaluate it. -/
def replaceAllGo (pat rep : Str) : Str → ℕ → Str
  | _, 0 => []
  | s, fuel + 1 =>
    match s with
    | [] => []
    | c :: cs =>
      if pat.isPrefixOf (c :: cs) then rep ++ replaceAllGo pat rep (List.drop pat.length (c :: cs)) fuel
      else c :: replaceAllGo pat rep cs fuel

/-- Python `word.replace(pat, rep)` (the source only calls it with nonempty
patterns; for an empty pattern we return the word unchanged). -/
def replaceAll (s pat rep : Str) : Str :=
  if pat.isEmpty then s else replaceAllGo pat rep s s.length

/-- Python's substring test `pat in s`. -/
def containsSub (pat : Str) : Str → Bool
  | [] => pat.isEmpty
  | c :: cs => pat.isPrefixOf (c :: cs) || containsSub pat cs

/-- Embedding of `ConfusionDetector.find_confusion_patterns`: for every
confusion-table entry whose wrong form occurs in the word, propose the
substituted word when it differs and the dictionary accepts it, with
confidence 0.85 when the case patterns of the two forms agree and 0.75
otherwise. -/
def findConfusionPatterns (D : DictState) (pairs : List (Str × List Str)) (word : Str) :
    List (Str × ℚ) :=
  pairs.flatMap (fun p =>
    if containsSub p.1 word then
      p.2.filterMap (fun right =>
        let candidate := replaceAll word p.1 right
        if candidate ≠ word && checkWord D candidate then
          some (candidate, if pyIsUpper p.1 == pyIsUpper right then (0.85 : ℚ) else 0.75)
        else none)
    else [])

/-- The `character_confusion_pairs` table of `CONFIG`, in source order (the
duplicate `"aud"` literals collapse onto the first occurrence, as in a Python
dict literal). -/
def configConfusionPairs : List (Str × List Str) :=
  [(("X").data, [("K").data]), (("rn").data, [("m").data]), (("cl").data, [("d").data]),
   (("vv").data, [("w").data]), (("u").data, [("n").data]), (("ii").data, [("u").data]),
   (("aud").data, [("and").data]), (("aad").data, [("and").data]), (("cau").data, [("can").data]),
   (("iu").data, [("in").data]), (("thau").data, [("than").data]), (("bnt").data, [("but").data]),
   (("tiie").data, [("the").data]), (("tlie").data, [("the").data])]

/-- The `preserve_historical_spellings` whitelist of `CONFIG`. -/
def configPreservedSpellings : List Str :=
  [("connexion").data, ("shew").data, ("shewn").data, ("shewed").data, ("pro formâ").data,
   ("portale").data, ("hostages").data, ("favourable").data, ("colour").data, ("honour").data,
   ("labour").data, ("favour").data, ("endeavour").data, ("neighbour").data]

/-! ### The Levenshtein fallback implementation

Embedding of the `levenshtein_distance` fallback defined at the top of
`parliamentary_ocr_corrector.py` (the same code appears in
`discover_ocr_errors.py`): a dynamic program over rows. -/

/-- The inner loop of the row update: walk `s2` together with the previous row
(`p0 :: p1 :: …`), carrying the last entry of the current row in `left`. -/
def levInner (c1 : Char) : Str → List ℕ → ℕ → List ℕ
  | [], _, _ => []
  | c2 :: s2, prev, left =>
    match prev with
    | p0 :: p1 :: ps =>
      let entry := min (p1 + 1) (min (left + 1) (p0 + (if c1 ≠ c2 then 1 else 0)))
      entry :: levInner c1 s2 (p1 :: ps) entry
    | _ => []

/-- One outer-loop iteration: the current row starts with `i + 1`. -/
def levRow (s2 : Str) (prev : List ℕ) (i : ℕ) (c1 : Char) : List ℕ :=
  (i + 1) :: levInner c1 s2 prev (i + 1)

/-- The dynamic program, assuming `s1` is the longer string. -/
def levCore (s1 s2 : Str) : ℕ :=
  if s2.length = 0 then s1.length
  else
    let finalRow := (s1.enum.foldl (fun prev ci => levRow s2 prev ci.1 ci.2) (List.range (s2.length + 1)))
    finalRow.getLastD 0

/-- Embedding of the fallback `levenshtein_distance(s1, s2)`. -/
def levenshteinDistance (s1 s2 : Str) : ℕ :=
  if s1.length < s2.length then levCore s2 s1 else levCore s1 s2

/-! ### Merging suggestion lists (`OCRCorrector._merge_suggestions`) -/

/-- One step of filling the Python dict `suggestions`: insert the pair at the
end when its word is new, otherwise raise the stored confidence in place when
the new one is strictly larger (`if word not in suggestions or conf >
suggestions[word]`). -/
def updateMax : List (Str × ℚ) → Str × ℚ → List (Str × ℚ)
  | [], p => [p]
  | q :: rest, p =>
    if q.1 = p.1 then (if q.2 < p.2 then (q.1, p.2) :: rest else q :: rest)
    else q :: updateMax rest p

/-- Python's stable `sorted(l, key=lambda x: x[1], reverse=True)`. -/
def sortByConfDesc (l : List (Str × ℚ)) : List (Str × ℚ) :=
  List.insertionSort (fun a b : Str × ℚ => b.2 ≤ a.2) l

/-- Embedding of `OCRCorrector._merge_suggestions`: keep the highest
confidence per word, then sort descending by confidence. -/
def mergeSuggestions (list1 list2 : List (Str × ℚ)) : List (Str × ℚ) :=
  sortByConfDesc ((list1 ++ list2).foldl updateMax [])

/-! ### The positional corrector (`OCRCorrector._apply_corrections`) -/

/-- Embedding of the `ErrorCandidate` dataclass. -/
structure ErrorCandidate where
  pageIndex : ℤ
  word : Str
  position : ℕ
  errorTypes : List Str
  suggestions : List (Str × ℚ)
  context : Str
deriving DecidableEq

/-- The capitalization adjustment performed by `_apply_corrections` before a
replacement: all-caps original gives an upper-cased suggestion, else an
initial capital gives a capitalized suggestion, else the suggestion is used
unchanged.  (The source indexes `original_word[0]`; tokens are nonempty.) -/
def adjustCap (orig sugg : Str) : Str :=
  if pyIsUpper orig then pyUpper sugg
  else if (match orig with | c :: _ => c.isUpper | [] => false) then pyCapitalize sugg
  else sugg

/-- Whether a candidate is applied: a nonempty suggestion list whose top
confidence reaches the threshold. -/
def willApply (threshold : ℚ) (e : ErrorCandidate) : Bool :=
  match e.suggestions with
  | [] => false
  | (_, conf) :: _ => threshold ≤ conf

/-- The text inserted for an applied candidate: its top suggestion with the
capitalization of the original word. -/
def appliedText (e : ErrorCandidate) : Str :=
  match e.suggestions with
  | [] => []
  | (best, _) :: _ => adjustCap e.word best

/-- One iteration of the `_apply_corrections` loop: skip candidates with no
suggestions or a top confidence below the threshold, otherwise splice the
adjusted suggestion over `text[pos : pos + len(original_word)]`. -/
def applyStep (threshold : ℚ) (acc : Str × ℕ) (e : ErrorCandidate) : Str × ℕ :=
  match e.suggestions with
  | [] => acc
  | (best, conf) :: _ =>
    if threshold ≤ conf then
      (acc.1.take e.position ++ adjustCap e.word best ++ acc.1.drop (e.position + e.word.length),
       acc.2 + 1)
    else acc

/-- Python's stable `sorted(errors, key=lambda e: e.position, reverse=True)`. -/
def sortByPosDesc (errors : List ErrorCandidate) : List ErrorCandidate :=
  List.insertionSort (fun a b : ErrorCandidate => b.position ≤ a.position) errors

/-- Embedding of `OCRCorrector._apply_corrections`. -/
def applyCorrections (text : Str) (errors : List ErrorCandidate) (threshold : ℚ) : Str × ℕ :=
  (sortByPosDesc errors).foldl (applyStep threshold) (text, 0)

/-- The applied candidates in processing (descending-position) order. -/
def appliedDesc (errors : List ErrorCandidate) (threshold : ℚ) : List ErrorCandidate :=
  (sortByPosDesc errors).filter (willApply threshold)

/-- Specification-side view of `_apply_corrections`: given the applied
candidates in ascending position order, the output is built from slices of the
original text, so every part of the original string outside the replaced spans
appears verbatim. -/
def rebuildAbs (t : Str) (i : ℕ) : List ErrorCandidate → Str
  | [] => t.drop i
  | e :: es =>
    sliceL t i e.position ++ appliedText e ++ rebuildAbs t (e.position + e.word.length) es

/-- A candidate's offsets refer to the text: its original word occupies
`[position, position + len(word))` of the (pre-mutation) string. -/
def matchesSpan (t : Str) (e : ErrorCandidate) : Prop :=
  sliceL t e.position (e.position + e.word.length) = e.word

instance (t : Str) (e : ErrorCandidate) : Decidable (matchesSpan t e) := by
  unfold matchesSpan; infer_instance

/-- Two candidates occupy disjoint spans of the text. -/
def disjointSpans (a b : ErrorCandidate) : Prop :=
  a.position + a.word.length ≤ b.position ∨ b.position + b.word.length ≤ a.position

instance (a b : ErrorCandidate) : Decidable (disjointSpans a b) := by
  unfold disjointSpans; infer_instance

/-! ### Methods 4 and 5: n-gram scoring and edit-distance correction

The trained `NgramScorer` object is modelled by its scoring function
`scoreTrigram`; the code of `score_sequence`, `_calculate_confidence` and
`generate_corrections` is embedded concretely. -/

/-- Embedding of `NgramScorer.score_sequence`: the trigram score of every
word from index 2 on, keeping those below the configured minimum. -/
def scoreSequence (scoreTrigram : Str → Str → Str → ℚ) (minScore : ℚ) (words : List Str) :
    List (ℕ × Str × ℚ) :=
  (List.range words.length).filterMap (fun i =>
    if 2 ≤ i then
      let s := scoreTrigram (words.getD (i - 2) []) (words.getD (i - 1) []) (words.getD i [])
      if s < minScore then some (i, words.getD i [], s) else none
    else none)

/-- Components 1 and 2 of `_calculate_confidence`: 0.4 for dictionary
presence plus 0.3 scaled by closeness of the edit distance to the threshold. -/
def editBaseScore (D : DictState) (editThreshold : ℕ) (candidate : Str) (editDist : ℕ) : ℚ :=
  (if checkWord D candidate then (0.4 : ℚ) else 0) +
    0.3 * (1 - (editDist : ℚ) / (editThreshold : ℚ))

/-- Component 3 of `_calculate_confidence`: the n-gram improvement bonus,
`min((candidateScore - originalScore) / 5, 0.3)` when the candidate scores
higher, zero otherwise. -/
def ngramBonus (scoreTrigram : Str → Str → Str → ℚ) (w1 w2 original candidate : Str) : ℚ :=
  if scoreTrigram w1 w2 (pyLower original) < scoreTrigram w1 w2 (pyLower candidate) then
    min ((scoreTrigram w1 w2 (pyLower candidate) - scoreTrigram w1 w2 (pyLower original)) / 5) 0.3
  else 0

/-- Embedding of `EditDistanceCorrector._calculate_confidence`: the base
score, plus the n-gram bonus when at least two context words exist, capped
at 1. -/
def calcConfidence (D : DictState) (scoreTrigram : Str → Str → Str → ℚ) (editThreshold : ℕ)
    (original candidate : Str) (context : List Str) (editDist : ℕ) : ℚ :=
  min (editBaseScore D editThreshold candidate editDist +
        (if 2 ≤ context.length then
          ngramBonus scoreTrigram (context.getD (context.length - 2) [])
            (context.getD (context.length - 1) []) original candidate
         else 0)) 1

/-- Embedding of `EditDistanceCorrector.generate_corrections`: scan the
vocabulary, skip entries whose length differs by more than the threshold,
keep those at positive edit distance at most the threshold with their
confidence, and return the top five by confidence. -/
def generateCorrections (D : DictState) (scoreTrigram : Str → Str → Str → ℚ)
    (vocabulary : List Str) (editThreshold : ℕ) (word : Str) (contextWords : List Str) :
    List (Str × ℚ) :=
  let candidates := vocabulary.filterMap (fun vocabWord =>
    if editThreshold < (((vocabWord.length : ℤ) - (word.length : ℤ)).natAbs) then none
    else
      let dist := levenshteinDistance (pyLower word) (pyLower vocabWord)
      if dist ≤ editThreshold ∧ 0 < dist then
        some (vocabWord, calcConfidence D scoreTrigram editThreshold word vocabWord contextWords dist)
      else none)
  (sortByConfDesc candidates).take 5

/-! ### The per-page pipeline (`OCRCorrector._process_page`) -/

/-- A page record: `page.get('markdown', '')` and `page.get('index', 0)` read
optional fields. -/
structure Page where
  markdown : Option Str
  index : Option ℤ
deriving DecidableEq

/-- The text of a page, with a missing field read as the empty string. -/
def pageText (p : Page) : Str := p.markdown.getD []

/-- The index of a page, with a missing field read as 0. -/
def pageIdx (p : Page) : ℤ := p.index.getD 0

/-- Embedding of `OCRCorrector._get_context`: up to 50 characters around the
position. -/
def getContext (t : Str) (pos : ℕ) : Str :=
  sliceL t (pos - 50) (min t.length (pos + 50))

/-- Embedding of `OCRCorrector._get_context_words`: the lower-cased window of
up to `window` words before the first occurrence of the target (empty when the
target is absent). -/
def getContextWords (allWords : List Str) (target : Str) (window : ℕ) : List Str :=
  match allWords.findIdx? (fun w => w == target) with
  | none => []
  | some idx => (((allWords.drop (idx - window)).take (idx - (idx - window))).map pyLower)

/-- The read-only component state threaded through `_process_page`.  The
dictionary checker, confusion table, vocabulary and thresholds are the
concrete data of the embedded components; the corpus-trained entity validator,
n-gram scorer and regex-based structural validator are modelled as functions. -/
structure PipeCtx where
  D : DictState
  confusionPairs : List (Str × List Str)
  entityFind : Page → List ErrorCandidate
  scoreTrigram : Str → Str → Str → ℚ
  minNgramScore : ℚ
  vocabulary : List Str
  editThreshold : ℕ
  structValidate : Page → List ErrorCandidate

/-- Method 1 of `_process_page`: one `unknown_word` candidate per token the
dictionary checker rejects. -/
def dictionaryErrors (D : DictState) (p : Page) : List ErrorCandidate :=
  (tokenizeWithPositions (pageText p)).filterMap (fun wp =>
    if checkWord D wp.1 then none
    else some
      { pageIndex := pageIdx p, word := wp.1, position := wp.2,
        errorTypes := [("unknown_word").data], suggestions := [],
        context := getContext (pageText p) wp.2 })

/-- Method 2 of `_process_page`: enrich an error with confusion-pattern
suggestions when any exist. -/
def enrichConfusion (ctx : PipeCtx) (e : ErrorCandidate) : ErrorCandidate :=
  let confusions := findConfusionPatterns ctx.D ctx.confusionPairs e.word
  if confusions.isEmpty then e
  else { e with errorTypes := e.errorTypes ++ [("confusion_pattern").data],
                suggestions := e.suggestions ++ confusions }

/-- Method 5 of `_process_page`: merge the edit-distance generator's
candidates into an error's suggestion list. -/
def enrichEdit (ctx : PipeCtx) (words : List Str) (e : ErrorCandidate) : ErrorCandidate :=
  let contextWords := getContextWords words e.word 3
  { e with suggestions := (mergeSuggestions e.suggestions
      (generateCorrections ctx.D ctx.scoreTrigram ctx.vocabulary ctx.editThreshold e.word
        contextWords)) }

/-- Method 4 of `_process_page`: a `low_ngram_score` candidate for each
low-scoring word index that lies within the token list. -/
def ngramErrors (ctx : PipeCtx) (p : Page) (wps : List (Str × ℕ)) (words : List Str) :
    List ErrorCandidate :=
  (scoreSequence ctx.scoreTrigram ctx.minNgramScore words).filterMap (fun l =>
    if l.1 < wps.length then
      some { pageIndex := pageIdx p, word := l.2.1, position := (wps.getD l.1 ([], 0)).2,
             errorTypes := [("low_ngram_score").data], suggestions := [],
             context := getContext (pageText p) (wps.getD l.1 ([], 0)).2 }
    else none)

/-- Embedding of `OCRCorrector._process_page`: dictionary check, confusion
enrichment, entity inconsistencies, n-gram flags, edit-distance enrichment of
every accumulated error, then structural validation. -/
def processPage (ctx : PipeCtx) (p : Page) : List ErrorCandidate :=
  let wps := tokenizeWithPositions (pageText p)
  let words := wps.map Prod.fst
  let errors2 := (dictionaryErrors ctx.D p).map (enrichConfusion ctx)
  let errors4 := (errors2 ++ ctx.entityFind p) ++ ngramErrors ctx p wps words
  (errors4.map (enrichEdit ctx words)) ++ ctx.structValidate p

/-! ### Corpus vocabularies (`NgramScorer`, `EditDistanceCorrector`,
`discover_ocr_errors.py`) -/

/-- The unigram keys of the trained `NgramScorer`: the distinct tokens of the
lower-cased corpus (`_tokenize` lower-cases before matching). -/
def ngramUnigramKeys (pages : List Page) : List Str :=
  (pages.flatMap (fun p => tokensOf (pyLower (pageText p)))).dedup

/-- The vocabulary of `EditDistanceCorrector`: `set(ngram_scorer.unigrams.keys())`. -/
def editVocabulary (pages : List Page) : List Str := ngramUnigramKeys pages

/-- Embedding of `extract_words` of `discover_ocr_errors.py`: the corpus
tokens of every page, case preserved. -/
def corpusTokens (pages : List Page) : List Str :=
  pages.flatMap (fun p => tokensOf (pageText p))

/-- The frequency of a word in the corpus (case-sensitive, as counted by
`extract_words`). -/
def wordCount (pages : List Page) (w : Str) : ℕ := (corpusTokens pages).count w

/-- The `Counter` built by `extract_words`, as an association list of distinct
words with their counts. -/
def extractWords (pages : List Page) : List (Str × ℕ) :=
  (corpusTokens pages).dedup.map (fun w => (w, wordCount pages w))

/-- Embedding of `build_high_frequency_dictionary` of `discover_ocr_errors.py`:
the lower-casings of the counted words whose count reaches `minFrequency`. -/
def buildHighFrequencyDictionary (wordCounts : List (Str × ℕ)) (minFrequency : ℕ) : List Str :=
  (wordCounts.filter (fun wc => minFrequency ≤ wc.2)).map (fun wc => pyLower wc.1)

/-! ### The frequency-based corrector (`frequency_based_corrector.py`) -/

/-- One record of `ocr-error-analysis.json` as read by
`_load_error_analysis` (`candidate.get(...)` with defaults applied). -/
structure AnalysisEntry where
  rareWord : Option Str
  suggestedCorrection : Option Str
  rareCount : ℕ
  correctCount : ℕ
  editDistance : ℕ
deriving DecidableEq

/-- The base confidence tier of `_load_error_analysis`, from the frequency
ratio `correct_count / rare_count`. -/
def freqBase (rareCount correctCount : ℕ) : ℚ :=
  if 50 ≤ (correctCount : ℚ) / (rareCount : ℚ) then 0.95
  else if 20 ≤ (correctCount : ℚ) / (rareCount : ℚ) then 0.90
  else if 10 ≤ (correctCount : ℚ) / (rareCount : ℚ) then 0.85
  else 0.70

/-- The base tier adjusted for edit distance: add 0.03 at distance 1 and 0.01
at distance 2. -/
def freqAdjusted (rareCount correctCount editDistance : ℕ) : ℚ :=
  if editDistance = 1 then freqBase rareCount correctCount + 0.03
  else if editDistance = 2 then freqBase rareCount correctCount + 0.01
  else freqBase rareCount correctCount

/-- The confidence computed by `_load_error_analysis` for an entry: the
distance-adjusted tier, penalized by 0.10 when the correct word appears fewer
than 30 times. -/
def freqConfidence (rareCount correctCount editDistance : ℕ) : ℚ :=
  if correctCount < 30 then freqAdjusted rareCount correctCount editDistance - 0.10
  else freqAdjusted rareCount correctCount editDistance

/-- A word looks like a proper noun to `frequency_based_corrector.py`:
longer than one character, initial upper, remainder lower. -/
def properNounLike (w : Str) : Bool :=
  decide (1 < w.length) && (match w with | c :: _ => c.isUpper | [] => false) && pyIsLower (w.drop 1)

/-- A word looks like an acronym/header: fully upper-case, longer than one
character. -/
def allCapsLike (w : Str) : Bool := pyIsUpper w && decide (1 < w.length)

/-- Update the `self.corrections` dict for one accepted candidate: keep the
stored pair unless the new confidence is strictly larger. -/
def correctionsInsert (acc : List (Str × Str × ℚ)) (rareWord correctWord : Str) (conf : ℚ) :
    List (Str × Str × ℚ) :=
  match acc with
  | [] => [(rareWord, correctWord, conf)]
  | q :: rest =>
    if q.1 = rareWord then
      (if q.2.2 < conf then (q.1, correctWord, conf) :: rest else q :: rest)
    else q :: correctionsInsert rest rareWord correctWord conf

/-- One iteration of the `_load_error_analysis` loop over error candidates. -/
def buildStep (threshold : ℚ) (acc : List (Str × Str × ℚ)) (e : AnalysisEntry) :
    List (Str × Str × ℚ) :=
  match e.rareWord, e.suggestedCorrection with
  | some rareWord, some correctWord =>
    if rareWord.isEmpty || correctWord.isEmpty then acc
    else if properNounLike rareWord then acc
    else if allCapsLike rareWord then acc
    else if e.correctCount = 0 || e.rareCount = 0 then acc
    else
      let conf := freqConfidence e.rareCount e.correctCount e.editDistance
      if threshold ≤ conf then correctionsInsert acc rareWord correctWord conf else acc
  | _, _ => acc

/-- Embedding of `FrequencyBasedCorrector._load_error_analysis`: the
correction lookup built from the error-analysis records. -/
def buildCorrections (threshold : ℚ) (entries : List AnalysisEntry) : List (Str × Str × ℚ) :=
  entries.foldl (buildStep threshold) []

/-- Embedding of `FrequencyBasedCorrector.correct_word`: skip proper-noun-like
and all-caps words, otherwise look the lower-cased word up and re-apply the
original capitalization pattern. -/
def freqCorrectWord (corrections : List (Str × Str × ℚ)) (word : Str) : Str × ℚ :=
  if properNounLike word then (word, 0)
  else if allCapsLike word then (word, 0)
  else
    match corrections.lookup (pyLower word) with
    | some cc =>
      let correct :=
        if (match word with | c :: _ => c.isUpper | [] => false) then pyCapitalize cc.1
        else if pyIsUpper word then pyUpper cc.1
        else cc.1
      (correct, cc.2)
    | none => (word, 0)

/-- The per-match function of `FrequencyBasedCorrector.correct_text`. -/
def freqReplaceToken (corrections : List (Str × Str × ℚ)) (threshold : ℚ) (word : Str) : Str :=
  let r := freqCorrectWord corrections word
  if threshold ≤ r.2 ∧ r.1 ≠ word then r.1 else word

/-- Embedding of `FrequencyBasedCorrector.correct_text`. -/
def freqCorrectText (corrections : List (Str × Str × ℚ)) (text : Str) (threshold : ℚ) : Str :=
  pySubAlphaWords (freqReplaceToken corrections threshold) text

/-! ### The simple pattern corrector (`ocr_corrector_simple.py`) -/

/-- The `CONFUSION_PATTERNS` table, in source order (the duplicate `"aud"`
literal collapses onto the first occurrence, as in a Python dict literal). -/
def simplePatterns : List (Str × Str) :=
  [(("DUEX").data, ("DUKE").data), (("rn").data, ("m").data), (("cl").data, ("d").data),
   (("vv").data, ("w").data), (("aud").data, ("and").data), (("aad").data, ("and").data),
   (("tiie").data, ("the").data), (("tlie").data, ("the").data), (("bnt").data, ("but").data),
   (("iu").data, ("in").data), (("thau").data, ("than").data), (("cau").data, ("can").data),
   (("wheu").data, ("when").data), (("theu").data, ("then").data), (("rnost").data, ("most").data),
   (("raay").data, ("may").data), (("couutry").data, ("country").data), (("ou").data, ("on").data),
   (("LOEDS").data, ("LORDS").data), (("COUONS").data, ("COMMONS").data)]

/-- Embedding of `SimpleOCRCorrector.correct_word`: exact key match first,
then a case-insensitive match for all-caps words, then the first substring
pattern of length at least 3 whose replacement changes the word. -/
def simpleCorrectWord (patterns : List (Str × Str)) (word : Str) : Str × ℚ :=
  match patterns.lookup word with
  | some rep => (rep, 0.95)
  | none =>
    if pyIsUpper word && (patterns.map (fun p => pyUpper p.1)).contains word then
      match patterns.find? (fun p => word == pyUpper p.1) with
      | some p => (pyUpper p.2, 0.95)
      | none => (word, 0)
    else
      match patterns.find? (fun p =>
          3 ≤ p.1.length && containsSub p.1 word && replaceAll word p.1 p.2 ≠ word) with
      | some p => (replaceAll word p.1 p.2, 0.85)
      | none => (word, 0)

/-- The per-match function of `SimpleOCRCorrector.correct_text`. -/
def simpleReplaceToken (patterns : List (Str × Str)) (threshold : ℚ) (word : Str) : Str :=
  let r := simpleCorrectWord patterns word
  if threshold ≤ r.2 ∧ r.1 ≠ word then r.1 else word

/-- Embedding of `SimpleOCRCorrector.correct_text`. -/
def simpleCorrectText (patterns : List (Str × Str)) (text : Str) (threshold : ℚ) : Str :=
  pySubAlphaWords (simpleReplaceToken patterns threshold) text

/-- The confidences attached to a word across a suggestion list. -/
def confsOf (w : Str) (l : List (Str × ℚ)) : List ℚ :=
  (l.filter (fun p => p.1 == w)).map Prod.snd

/-- The maximum of a list of confidences, `none` when empty. -/
def maxQ : List ℚ → Option ℚ
  | [] => none
  | x :: xs => some (match maxQ xs with | none => x | some m => max x m)

/-- Merge of two optional maxima. -/
def omax : Option ℚ → Option ℚ → Option ℚ
  | none, b => b
  | some a, none => some a
  | some a, some b => some (max a b)

/-- Concrete dictionary state for the pipeline scenario: the parliamentary
lexicon holds only `can`. -/
def cexDict : DictState := ⟨[], [("can").data], none, []⟩

/-- Concrete pipeline state: the `CONFIG` confusion table, no entities, a
constant n-gram scorer, the vocabulary `cat`, edit threshold 2, no structural
errors. -/
def cexCtx : PipeCtx :=
  ⟨cexDict, configConfusionPairs, fun _ => [], fun _ _ _ => 0, -15, [("cat").data], 2, fun _ => []⟩

/-- A one-word page whose token is flagged by the dictionary check. -/
def cexPage : Page := ⟨some (("cau").data), some 0⟩

/-! ## Claim theorems -/

/-- C2 counterexample: with a domain lexicon containing only `BOURNE`, the
claim's predicate (which looks up the upper-cased form) accepts `bourne`,
but `check_word` (which looks the trimmed form up by exact match) rejects
it. -/
theorem C2_counterexample :
    claimCheckWord ⟨[], [("BOURNE").data], none, []⟩ (("bourne").data) = true ∧
    checkWord ⟨[], [("BOURNE").data], none, []⟩ (("bourne").data) = false := by
  constructor <;> decide

/-- C2 (amended): `check_word` returns true exactly when one of the checks
passes, in the source's order: length below 2; the lower-cased trimmed form in
the preserved-spellings whitelist; the trimmed form in the parliamentary
lexicon by exact match; pure digits; pure Roman-numeral characters; the modern
dictionary, when present, accepting the trimmed form as-is; or the lower-cased
trimmed form in the historical dictionary. -/
theorem C2_check_word_cases (D : DictState) (w : Str) :
    checkWord D w = true ↔
      (w.length < 2 ∨
       D.preservedSpellings.contains (pyLower (pyRstrip trailingPunctuation w)) = true ∨
       D.parliamentaryTerms.contains (pyRstrip trailingPunctuation w) = true ∨
       isAllDigits (pyRstrip trailingPunctuation w) = true ∨
       isRomanNumeral (pyRstrip trailingPunctuation w) = true ∨
       (∃ dict, D.modernDict = some dict ∧ dict (pyRstrip trailingPunctuation w) = true) ∨
       D.historicalWords.contains (pyLower (pyRstrip trailingPunctuation w)) = true) := by
  cases D with
  | mk ps pt md hw =>
    cases md <;> simp only [checkWord] <;> split_ifs <;> simp_all <;> tauto

/-- C6: `_apply_corrections` matches the inserted word's capitalization to
the original token: an all-upper-case token upper-cases the suggestion, else a
token with an upper-case first character capitalizes it, else the suggestion
is inserted unchanged; in particular correcting `TEH`/`Teh`/`teh` with base
suggestion `the` yields `THE`/`The`/`the`. -/
theorem C6_capitalization (orig sugg : Str) :
    (pyIsUpper orig = true → adjustCap orig sugg = pyUpper sugg) ∧
    (pyIsUpper orig = false → (orig.headD ' ').isUpper = true →
       adjustCap orig sugg = pyCapitalize sugg) ∧
    (pyIsUpper orig = false → (orig.headD ' ').isUpper = false →
       adjustCap orig sugg = sugg) ∧
    applyCorrections (("TEH x and Teh y teh").data)
      [⟨0, ("TEH").data, 0, [], [(("the").data, 0.95)], []⟩,
       ⟨0, ("Teh").data, 10, [], [(("the").data, 0.95)], []⟩,
       ⟨0, ("teh").data, 16, [], [(("the").data, 0.95)], []⟩] 0.9
      = ((("THE x and The y the").data), 3) := by
  refine ⟨?_, ?_, ?_, ?_⟩
  · intro h; simp [adjustCap, h]
  · intro h1 h2
    cases orig with
    | nil => simp at h2
    | cons c rest => simp_all [adjustCap]
  · intro h1 h2
    cases orig with
    | nil => simp [adjustCap, h1]
    | cons c rest => simp_all [adjustCap]
  · norm_num [applyCorrections, sortByPosDesc, applyStep, adjustCap, pyIsUpper, pyUpper,
      pyCapitalize, List.insertionSort, List.orderedInsert]
    decide

/-- Witness for C6: the all-caps branch applied at `TEH`/`the`. -/
theorem C6_capitalization_witness :
    adjustCap (("TEH").data) (("the").data) = pyUpper (("the").data) :=
  (C6_capitalization (("TEH").data) (("the").data)).1 (by decide)

lemma freqBase_mono {r1 r2 : ℕ} {c1 c2 : ℕ}
    (hr : (c1 : ℚ) / (r1 : ℚ) ≤ (c2 : ℚ) / (r2 : ℚ)) :
    freqBase r1 c1 ≤ freqBase r2 c2 := by
  unfold freqBase
  split_ifs <;> linarith

lemma freqAdjusted_mono_ratio {r1 r2 c1 c2 d : ℕ}
    (hr : (c1 : ℚ) / (r1 : ℚ) ≤ (c2 : ℚ) / (r2 : ℚ)) :
    freqAdjusted r1 c1 d ≤ freqAdjusted r2 c2 d := by
  have := freqBase_mono hr
  unfold freqAdjusted
  split_ifs <;> linarith

lemma freqAdjusted_anti_dist {r c : ℕ} {d1 d2 : ℕ} (hd1 : 1 ≤ d1) (hd : d1 ≤ d2) :
    freqAdjusted r c d2 ≤ freqAdjusted r c d1 := by
  unfold freqAdjusted
  split_ifs <;> (try omega) <;> linarith

/-- C8: the frequency-ratio generator's confidence is monotone non-decreasing
in the frequency ratio (raising the correct count with the rare count fixed,
or lowering the rare count with the correct count fixed) and non-increasing in
edit distance over the distances the discovery tool produces (at least 1); and
the edit-distance generator's scoring function is non-increasing in edit
distance, all other inputs held fixed. -/
theorem C8_confidence_monotonicity :
    (∀ rc cc1 cc2 d, 1 ≤ rc → cc1 ≤ cc2 →
       freqConfidence rc cc1 d ≤ freqConfidence rc cc2 d) ∧
    (∀ rc1 rc2 cc d, 1 ≤ rc2 → rc2 ≤ rc1 →
       freqConfidence rc1 cc d ≤ freqConfidence rc2 cc d) ∧
    (∀ rc cc d1 d2, 1 ≤ d1 → d1 ≤ d2 →
       freqConfidence rc cc d2 ≤ freqConfidence rc cc d1) ∧
    (∀ D scoreTrigram editThreshold original candidate context d1 d2,
       0 < editThreshold → d1 ≤ d2 →
       calcConfidence D scoreTrigram editThreshold original candidate context d2 ≤
         calcConfidence D scoreTrigram editThreshold original candidate context d1) := by
  refine ⟨?_, ?_, ?_, ?_⟩
  · intro rc cc1 cc2 d hrc hcc
    have hr : (cc1 : ℚ) / (rc : ℚ) ≤ (cc2 : ℚ) / (rc : ℚ) := by
      have hq : (cc1 : ℚ) ≤ (cc2 : ℚ) := by exact_mod_cast hcc
      have hrpos : (0 : ℚ) < (rc : ℚ) := by exact_mod_cast hrc
      gcongr
    have hb := @freqAdjusted_mono_ratio rc rc cc1 cc2 d hr
    unfold freqConfidence
    split_ifs with g1 g2
    · linarith
    · linarith
    · omega
    · linarith
  · intro rc1 rc2 cc d hrc2 hrc
    have hr : (cc : ℚ) / (rc1 : ℚ) ≤ (cc : ℚ) / (rc2 : ℚ) := by
      have h2 : (0 : ℚ) < (rc2 : ℚ) := by exact_mod_cast hrc2
      have h1 : (rc2 : ℚ) ≤ (rc1 : ℚ) := by exact_mod_cast hrc
      have hc : (0 : ℚ) ≤ (cc : ℚ) := by positivity
      gcongr
    have hb := @freqAdjusted_mono_ratio rc1 rc2 cc cc d hr
    unfold freqConfidence
    split_ifs <;> linarith
  · intro rc cc d1 d2 hd1 hd
    have hb := @freqAdjusted_anti_dist rc cc d1 d2 hd1 hd
    unfold freqConfidence
    split_ifs <;> linarith
  · intro D scoreTrigram t original candidate context d1 d2 ht hd
    have htq : (0 : ℚ) < (t : ℚ) := by exact_mod_cast ht
    have hdq : (d1 : ℚ) / (t : ℚ) ≤ (d2 : ℚ) / (t : ℚ) := by
      have hq : (d1 : ℚ) ≤ (d2 : ℚ) := by exact_mod_cast hd
      gcongr
    have hbase : editBaseScore D t candidate d2 ≤ editBaseScore D t candidate d1 := by
      unfold editBaseScore
      split_ifs <;> linarith
    unfold calcConfidence
    exact min_le_min (by split_ifs <;> linarith) le_rfl

/-- Witness for C8: raising the correct count from 10 to 100 with rare count 1
and distance 1 does not lower the confidence. -/
theorem C8_confidence_monotonicity_witness :
    freqConfidence 1 10 1 ≤ freqConfidence 1 100 1 :=
  C8_confidence_monotonicity.1 1 10 100 1 (by norm_num) (by norm_num)

/-- C5 counterexample: on a corpus consisting of the page `zzqx the the`, the
vocabulary searched by the edit-distance generator contains `zzqx`, a word of
corpus frequency 1 that fails the Lexicon Oracle (here with empty dictionary
state), so the vocabulary is neither frequency-filtered nor validity-filtered. -/
theorem C5_counterexample :
    (("zzqx").data) ∈ editVocabulary [⟨some (("zzqx the the").data), some 0⟩] ∧
    checkWord ⟨[], [], none, []⟩ (("zzqx").data) = false ∧
    wordCount [⟨some (("zzqx the the").data), some 0⟩] (("zzqx").data) = 1 := by
  refine ⟨?_, ?_, ?_⟩ <;> decide

/-- C5 (amended): the vocabulary searched by the edit-distance generator is
exactly the set of distinct tokens of the lower-cased corpus, with no size
bound, no frequency filter and no validity filter; separately, the discovery
tool's high-frequency dictionary holds exactly the lower-casings of counted
words whose case-sensitive frequency reaches the minimum. -/
theorem C5_vocabulary_contents :
    (∀ pages w, w ∈ editVocabulary pages ↔
       w ∈ pages.flatMap (fun p => tokensOf (pyLower (pageText p)))) ∧
    (∀ wordCounts minFrequency w,
       w ∈ buildHighFrequencyDictionary wordCounts minFrequency ↔
         ∃ wc ∈ wordCounts, minFrequency ≤ wc.2 ∧ pyLower wc.1 = w) := by
  constructor
  · intro pages w
    simp [editVocabulary, ngramUnigramKeys, List.mem_dedup]
  · intro wordCounts minFrequency w
    simp [buildHighFrequencyDictionary, List.mem_filter, List.mem_map]
    tauto

lemma lookup_correctionsInsert_ne {acc : List (Str × Str × ℚ)} {w rw cw : Str} {conf : ℚ}
    (h : w ≠ rw) : (correctionsInsert acc rw cw conf).lookup w = acc.lookup w := by
  have hbeq : (w == rw) = false := beq_eq_false_iff_ne.mpr h
  induction acc with
  | nil => simp [correctionsInsert, List.lookup, hbeq]
  | cons q rest ih =>
    unfold correctionsInsert
    by_cases hq : q.1 = rw
    · rw [if_pos hq]
      split_ifs
      · simp [List.lookup, hbeq, hq]
      · rfl
    · rw [if_neg hq]
      by_cases hw : w = q.1
      · simp [List.lookup, hw]
      · have hbq : (w == q.1) = false := beq_eq_false_iff_ne.mpr hw
        simp [List.lookup, hbq, ih]

lemma lookup_buildStep_shaped {acc : List (Str × Str × ℚ)} {θ : ℚ} {e : AnalysisEntry} {w : Str}
    (hw : properNounLike w = true ∨ allCapsLike w = true)
    (h : acc.lookup w = none) : (buildStep θ acc e).lookup w = none := by
  obtain ⟨orw, ocw, rc, cc, d⟩ := e
  unfold buildStep
  rcases orw with _ | rw <;> rcases ocw with _ | cw <;> try exact h
  dsimp only
  split_ifs with h1 h2 h3 h4 h5
  · exact h
  · exact h
  · exact h
  · exact h
  · rw [lookup_correctionsInsert_ne]
    · exact h
    · rintro rfl
      rcases hw with hx | hx
      · exact h2 hx
      · exact h3 hx
  · exact h

/-- C7: a proper-noun-shaped word (longer than one character, initial upper,
remainder lower) or an all-caps word longer than one character is skipped by
the frequency-ratio generator: `correct_word` returns it unchanged with
confidence 0, such words are never keys of the correction lookup built by
`_load_error_analysis`, and the per-token replacement of `correct_text` leaves
them unchanged at every threshold. -/
theorem C7_proper_noun_skip :
    (∀ corrections w, properNounLike w = true ∨ allCapsLike w = true →
       freqCorrectWord corrections w = (w, 0)) ∧
    (∀ θ entries w, properNounLike w = true ∨ allCapsLike w = true →
       (buildCorrections θ entries).lookup w = none) ∧
    (∀ corrections θ w, properNounLike w = true ∨ allCapsLike w = true →
       freqReplaceToken corrections θ w = w) := by
  have hword : ∀ (corrections : List (Str × Str × ℚ)) w,
      properNounLike w = true ∨ allCapsLike w = true → freqCorrectWord corrections w = (w, 0) := by
    intro corrections w hw
    rcases hw with hx | hx
    · simp [freqCorrectWord, hx]
    · by_cases hp : properNounLike w = true
      · simp [freqCorrectWord, hp]
      · simp [freqCorrectWord, hp, hx]
  refine ⟨hword, ?_, ?_⟩
  · intro θ entries w hw
    unfold buildCorrections
    have : ∀ (l : List AnalysisEntry) (acc : List (Str × Str × ℚ)), acc.lookup w = none →
        (l.foldl (buildStep θ) acc).lookup w = none := by
      intro l
      induction l with
      | nil => intro acc h; exact h
      | cons e rest ih =>
        intro acc h
        exact ih _ (lookup_buildStep_shaped hw h)
    exact this entries [] (by simp [List.lookup])
  · intro corrections θ w hw
    simp [freqReplaceToken, hword corrections w hw]

/-- Witness for C7: the proper noun `Bourne` is returned unchanged even when
its lower-casing has a high-confidence correction in the lookup. -/
theorem C7_proper_noun_skip_witness :
    freqCorrectWord [(("bourne").data, ("borne").data, 0.95)] (("Bourne").data)
      = ((("Bourne").data), 0) :=
  C7_proper_noun_skip.1 [(("bourne").data, ("borne").data, 0.95)] (("Bourne").data)
    (Or.inl (by decide))


lemma lookup_updateMax (acc : List (Str × ℚ)) (p : Str × ℚ) (w : Str) :
    (updateMax acc p).lookup w =
      if w = p.1 then
        (match acc.lookup w with | none => some p.2 | some c => some (max c p.2))
      else acc.lookup w := by
  induction acc with
  | nil =>
    by_cases hw : w = p.1
    · simp [updateMax, List.lookup, hw]
    · simp [updateMax, List.lookup, beq_eq_false_iff_ne.mpr hw, hw]
  | cons q rest ih =>
    unfold updateMax
    by_cases hq : q.1 = p.1
    · rw [if_pos hq]
      by_cases hw : w = q.1
      · have hwp : w = p.1 := hw.trans hq
        split_ifs with hlt
        · simp [List.lookup, beq_iff_eq, hw, hwp, max_eq_right (le_of_lt hlt)]
        · simp [List.lookup, beq_iff_eq, hw, hwp, max_eq_left (le_of_not_lt hlt)]
      · have hwp : w ≠ p.1 := fun h => hw (h.trans hq.symm)
        split_ifs with hlt
        · simp [List.lookup, beq_eq_false_iff_ne.mpr hw, hwp]
        · simp [List.lookup, beq_eq_false_iff_ne.mpr hw, hwp]
    · rw [if_neg hq]
      by_cases hw : w = q.1
      · have hwp : w ≠ p.1 := fun h => hq (hw.symm.trans h)
        rw [if_neg hwp]
        simp [List.lookup, beq_iff_eq, hw]
      · simp [List.lookup, beq_eq_false_iff_ne.mpr hw, ih]

lemma lookup_foldl_updateMax (l : List (Str × ℚ)) :
    ∀ (acc : List (Str × ℚ)) (w : Str),
      ((l.foldl updateMax acc).lookup w) = omax (acc.lookup w) (maxQ (confsOf w l)) := by
  induction l with
  | nil =>
    intro acc w
    rcases h : acc.lookup w with _ | c <;> simp [confsOf, maxQ, omax, h]
  | cons p l ih =>
    intro acc w
    rw [List.foldl_cons, ih, lookup_updateMax]
    by_cases hw : w = p.1
    · rw [if_pos hw]
      have hc : confsOf w (p :: l) = p.2 :: confsOf w l := by
        simp [confsOf, beq_iff_eq, hw.symm]
      rw [hc]
      rcases hacc : acc.lookup w with _ | c <;>
        rcases hm : maxQ (confsOf w l) with _ | m <;>
          simp [maxQ, omax, hm, max_assoc]
    · rw [if_neg hw]
      have hc : confsOf w (p :: l) = confsOf w l := by
        simp [confsOf, beq_eq_false_iff_ne.mpr (fun h => hw h.symm)]
      rw [hc]

lemma mem_keys_updateMax {acc : List (Str × ℚ)} {p : Str × ℚ} {w : Str} :
    w ∈ (updateMax acc p).map Prod.fst ↔ w ∈ acc.map Prod.fst ∨ w = p.1 := by
  induction acc with
  | nil => simp [updateMax]
  | cons q rest ih =>
    unfold updateMax
    by_cases hq : q.1 = p.1
    · rw [if_pos hq]
      split_ifs <;> simp [hq] <;> tauto
    · rw [if_neg hq]
      simp only [List.map_cons, List.mem_cons]
      rw [ih]
      tauto

lemma nodup_keys_updateMax {acc : List (Str × ℚ)} {p : Str × ℚ}
    (h : (acc.map Prod.fst).Nodup) : ((updateMax acc p).map Prod.fst).Nodup := by
  induction acc with
  | nil => simp [updateMax]
  | cons q rest ih =>
    simp only [List.map_cons, List.nodup_cons] at h
    unfold updateMax
    by_cases hq : q.1 = p.1
    · rw [if_pos hq]
      split_ifs <;> simp only [List.map_cons, List.nodup_cons] <;> exact ⟨h.1, h.2⟩
    · rw [if_neg hq]
      simp only [List.map_cons, List.nodup_cons]
      refine ⟨?_, ih h.2⟩
      intro hmem
      rcases mem_keys_updateMax.mp hmem with hx | hx
      · exact h.1 hx
      · exact hq hx

lemma nodup_keys_foldl_updateMax (l : List (Str × ℚ)) :
    ∀ acc, (acc.map Prod.fst).Nodup → ((l.foldl updateMax acc).map Prod.fst).Nodup := by
  induction l with
  | nil => intro acc h; exact h
  | cons p l ih =>
    intro acc h
    exact ih _ (nodup_keys_updateMax h)

lemma mem_iff_lookup_of_nodup_keys :
    ∀ (l : List (Str × ℚ)), (l.map Prod.fst).Nodup →
      ∀ w c, ((w, c) ∈ l ↔ l.lookup w = some c) := by
  intro l
  induction l with
  | nil => intro _ w c; simp [List.lookup]
  | cons q rest ih =>
    obtain ⟨qk, qv⟩ := q
    intro h w c
    simp only [List.map_cons, List.nodup_cons] at h
    by_cases hw : w = qk
    · subst hw
      simp only [List.lookup, beq_self_eq_true, List.mem_cons]
      constructor
      · rintro (h1 | h1)
        · rcases Prod.mk.injEq .. ▸ h1 with ⟨h2, h3⟩
          rw [h3]
        · exact absurd (List.mem_map_of_mem Prod.fst h1) h.1
      · intro h1
        left
        rw [Option.some_inj] at h1
        rw [h1]
    · have hb : (w == qk) = false := beq_eq_false_iff_ne.mpr hw
      simp only [List.lookup, hb, List.mem_cons]
      rw [← ih h.2 w c]
      constructor
      · rintro (h1 | h1)
        · exact absurd (congrArg Prod.fst h1) hw
        · exact h1
      · intro h1
        right
        exact h1

/-- C3: `_merge_suggestions` returns, for each distinct word of the two
inputs, exactly one pair carrying the maximum confidence over all occurrences
of that word, sorted descending by confidence; in particular merging two
singleton lists with the same word keeps one entry with the larger
confidence. -/
theorem C3_merge_suggestions (l1 l2 : List (Str × ℚ)) :
    (∀ w c, (w, c) ∈ mergeSuggestions l1 l2 ↔ maxQ (confsOf w (l1 ++ l2)) = some c) ∧
    ((mergeSuggestions l1 l2).Pairwise (fun a b : Str × ℚ => b.2 ≤ a.2)) ∧
    (((mergeSuggestions l1 l2).map Prod.fst).Nodup) ∧
    (∀ w a b, mergeSuggestions [(w, a)] [(w, b)] = [(w, max a b)]) := by
  have hperm : List.Perm (mergeSuggestions l1 l2) ((l1 ++ l2).foldl updateMax []) :=
    List.perm_insertionSort _ _
  have hnodupF : (((l1 ++ l2).foldl updateMax []).map Prod.fst).Nodup :=
    nodup_keys_foldl_updateMax _ [] (by simp)
  refine ⟨?_, ?_, ?_, ?_⟩
  · intro w c
    rw [hperm.mem_iff, mem_iff_lookup_of_nodup_keys _ hnodupF w c,
      lookup_foldl_updateMax]
    simp [List.lookup, omax]
  · haveI : IsTotal (Str × ℚ) (fun a b : Str × ℚ => b.2 ≤ a.2) :=
      ⟨fun a b => le_total b.2 a.2⟩
    haveI : IsTrans (Str × ℚ) (fun a b : Str × ℚ => b.2 ≤ a.2) :=
      ⟨fun a b c h1 h2 => le_trans h2 h1⟩
    exact List.sorted_insertionSort _ _
  · exact (hperm.map Prod.fst).nodup_iff.mpr hnodupF
  · intro w a b
    show sortByConfDesc (([(w, a)] ++ [(w, b)]).foldl updateMax []) = [(w, max a b)]
    have h1 : ([(w, a)] ++ [(w, b)]).foldl updateMax [] = [(w, max a b)] := by
      simp [updateMax]
      split_ifs with hlt
      · simp [max_eq_right (le_of_lt hlt)]
      · simp [max_eq_left (le_of_not_lt hlt)]
    rw [h1]
    rfl


lemma sliceL_replace_high {t : Str} (rest : Str) {p i j : ℕ} (hj : j ≤ p) (hp : p ≤ t.length) :
    sliceL (t.take p ++ rest) i j = sliceL t i j := by
  unfold sliceL
  rcases le_or_lt i p with hi | hi
  · rw [List.drop_append_eq_append_drop, List.take_append_eq_append_take]
    have hlen : (t.take p).length = p := by rw [List.length_take]; omega
    have hdlen : ((t.take p).drop i).length = p - i := by
      rw [List.length_drop, hlen]
    have h0 : (j - i) - ((t.take p).drop i).length = 0 := by omega
    rw [h0, List.take_zero, List.append_nil, List.drop_take, List.take_take]
    congr 1
    omega
  · have h0 : j - i = 0 := by omega
    rw [h0, List.take_zero, List.take_zero]

lemma matchesSpan_bound {t : Str} {e : ErrorCandidate} (h : matchesSpan t e)
    (hw : e.word ≠ []) : e.position + e.word.length ≤ t.length := by
  unfold matchesSpan sliceL at h
  have hlen := congrArg List.length h
  rw [List.length_take, List.length_drop] at hlen
  have hne : e.word.length ≠ 0 := fun h0 => hw (List.eq_nil_of_length_eq_zero h0)
  omega

lemma rebuildAbs_append_last {t : Str} {e : ErrorCandidate} (A : List ErrorCandidate)
    (i : ℕ)
    (hA : ∀ a ∈ A, a.position + a.word.length ≤ e.position)
    (hi : i ≤ e.position)
    (he : e.position + e.word.length ≤ t.length) :
    rebuildAbs t i (A ++ [e]) =
      rebuildAbs (t.take e.position ++ appliedText e ++ t.drop (e.position + e.word.length)) i
        A := by
  induction A generalizing i with
  | nil =>
    simp only [List.nil_append, rebuildAbs]
    have hshape : (t.take e.position ++ appliedText e ++ t.drop (e.position + e.word.length)) =
        t.take e.position ++ (appliedText e ++ t.drop (e.position + e.word.length)) := by
      rw [List.append_assoc]
    have hlen : (t.take e.position).length = e.position := by rw [List.length_take]; omega
    have h0 : i - (t.take e.position).length = 0 := by omega
    rw [hshape, List.drop_append_eq_append_drop, h0, List.drop_zero, ← List.append_assoc]
    congr 1
    unfold sliceL
    rw [List.drop_take]
  | cons a A ih =>
    have ha := hA a (List.mem_cons_self a A)
    simp only [List.cons_append, rebuildAbs, List.append_eq]
    rw [ih _ (fun b hb => hA b (List.mem_cons_of_mem a hb)) (by omega)]
    congr 1
    rw [List.append_assoc]
    rw [sliceL_replace_high _ (by omega) (by omega)]

lemma applyStep_not_apply {θ : ℚ} {acc : Str × ℕ} {e : ErrorCandidate}
    (h : willApply θ e = false) : applyStep θ acc e = acc := by
  unfold applyStep
  unfold willApply at h
  rcases hs : e.suggestions with _ | ⟨⟨best, conf⟩, rest⟩
  · simp only [hs]
  · simp only [hs] at h ⊢
    rw [if_neg (by simpa using h)]

lemma applyStep_apply {θ : ℚ} {t : Str} {k : ℕ} {e : ErrorCandidate}
    (h : willApply θ e = true) :
    applyStep θ (t, k) e =
      (t.take e.position ++ appliedText e ++ t.drop (e.position + e.word.length), k + 1) := by
  unfold applyStep appliedText
  unfold willApply at h
  rcases hs : e.suggestions with _ | ⟨⟨best, conf⟩, rest⟩
  · rw [hs] at h; simp at h
  · simp only [hs] at h ⊢
    rw [if_pos (by simpa using h)]

lemma applyLoop_spec (θ : ℚ) :
    ∀ (l : List ErrorCandidate) (t : Str) (k : ℕ),
      l.Pairwise (fun a b => b.position + b.word.length ≤ a.position) →
      (∀ e ∈ l, matchesSpan t e) →
      (∀ e ∈ l, e.word ≠ []) →
      l.foldl (applyStep θ) (t, k) =
        (rebuildAbs t 0 ((l.filter (willApply θ)).reverse),
         k + (l.filter (willApply θ)).length) := by
  intro l
  induction l with
  | nil =>
    intro t k _ _ _
    simp [rebuildAbs]
  | cons e es ih =>
    intro t k hpair hmatch hword
    rw [List.foldl_cons]
    rw [List.pairwise_cons] at hpair
    by_cases hap : willApply θ e = true
    · have hspan := hmatch e (List.mem_cons_self e es)
      have hwne := hword e (List.mem_cons_self e es)
      have hbound : e.position + e.word.length ≤ t.length := matchesSpan_bound hspan hwne
      rw [applyStep_apply hap]
      have hm2 : ∀ b ∈ es,
          matchesSpan (t.take e.position ++ appliedText e ++
            t.drop (e.position + e.word.length)) b := by
        intro b hb
        have hm := hmatch b (List.mem_cons_of_mem e hb)
        have hbe := hpair.1 b hb
        unfold matchesSpan at hm ⊢
        rw [List.append_assoc, sliceL_replace_high _ (by omega) (by omega)]
        exact hm
      rw [ih _ _ hpair.2 hm2 (fun b hb => hword b (List.mem_cons_of_mem e hb))]
      rw [List.filter_cons_of_pos hap, List.reverse_cons,
        rebuildAbs_append_last _ 0 (fun a ha => hpair.1 a (by
          rw [List.mem_reverse] at ha
          exact List.mem_of_mem_filter ha)) (by omega) hbound]
      simp only [List.length_cons]
      congr 1
      omega
    · rw [applyStep_not_apply (Bool.eq_false_iff.mpr hap)]
      rw [ih _ _ hpair.2 (fun b hb => hmatch b (List.mem_cons_of_mem e hb))
        (fun b hb => hword b (List.mem_cons_of_mem e hb))]
      rw [List.filter_cons_of_neg hap]


lemma disjointSpans_symm {a b : ErrorCandidate} (h : disjointSpans a b) : disjointSpans b a :=
  h.symm

lemma sortByPosDesc_sorted (errors : List ErrorCandidate) :
    (sortByPosDesc errors).Pairwise (fun a b => b.position ≤ a.position) := by
  haveI : IsTotal ErrorCandidate (fun a b => b.position ≤ a.position) :=
    ⟨fun a b => le_total b.position a.position⟩
  haveI : IsTrans ErrorCandidate (fun a b => b.position ≤ a.position) :=
    ⟨fun a b c h1 h2 => le_trans h2 h1⟩
  exact List.sorted_insertionSort _ _

lemma sortByPosDesc_strong {errors : List ErrorCandidate}
    (h2 : ∀ e ∈ errors, e.word ≠ [])
    (h3 : errors.Pairwise disjointSpans) :
    (sortByPosDesc errors).Pairwise
      (fun a b => b.position + b.word.length ≤ a.position) := by
  have hperm : List.Perm (sortByPosDesc errors) errors := List.perm_insertionSort _ _
  have hdisj : (sortByPosDesc errors).Pairwise disjointSpans :=
    (hperm.pairwise_iff (fun h => disjointSpans_symm h)).mpr h3
  have hcomb := (sortByPosDesc_sorted errors).and hdisj
  refine hcomb.imp_of_mem ?_
  intro a b ha hb hab
  rcases hab.2 with h | h
  · have hwa : a.word ≠ [] := h2 a (hperm.mem_iff.mp ha)
    have hna : a.word.length ≠ 0 := fun h0 => hwa (List.eq_nil_of_length_eq_zero h0)
    have := hab.1
    omega
  · exact h

/-- C1: `_apply_corrections`, run on candidates whose spans refer to the
original string (the original word occupies its span, spans are pairwise
disjoint and words are nonempty tokens), processes candidates in descending
position order, replaces exactly the spans of the candidates whose top
suggestion reaches the threshold, rebuilds everything outside those spans from
verbatim slices of the original string, and returns the number of
replacements performed. -/
theorem C1_apply_corrections_frame (text : Str) (errors : List ErrorCandidate) (θ : ℚ)
    (h1 : ∀ e ∈ errors, matchesSpan text e)
    (h2 : ∀ e ∈ errors, e.word ≠ [])
    (h3 : errors.Pairwise disjointSpans) :
    applyCorrections text errors θ =
      (rebuildAbs text 0 ((appliedDesc errors θ).reverse),
       (errors.filter (willApply θ)).length) ∧
    (∀ e, e ∈ appliedDesc errors θ ↔ e ∈ errors ∧ willApply θ e = true) := by
  have hperm : List.Perm (sortByPosDesc errors) errors := List.perm_insertionSort _ _
  constructor
  · unfold applyCorrections appliedDesc
    rw [applyLoop_spec θ (sortByPosDesc errors) text 0 (sortByPosDesc_strong h2 h3)
      (fun e he => h1 e (hperm.mem_iff.mp he))
      (fun e he => h2 e (hperm.mem_iff.mp he))]
    rw [Nat.zero_add, (hperm.filter (willApply θ)).length_eq]
  · intro e
    unfold appliedDesc
    rw [List.mem_filter, hperm.mem_iff]

/-- Witness for C1: the scenario page `He cau see it.` with one candidate. -/
theorem C1_apply_corrections_frame_witness :
    applyCorrections (("He cau see it.").data)
        [⟨0, ("cau").data, 3, [], [(("can").data, 0.85)], []⟩] 0.8 =
      (rebuildAbs (("He cau see it.").data) 0
        ((appliedDesc [⟨0, ("cau").data, 3, [], [(("can").data, 0.85)], []⟩] 0.8).reverse),
       ([⟨0, ("cau").data, 3, [], [(("can").data, 0.85)], []⟩].filter
          (willApply (0.8 : ℚ))).length) ∧
    (∀ e, e ∈ appliedDesc [⟨0, ("cau").data, 3, [], [(("can").data, 0.85)], []⟩] (0.8 : ℚ) ↔
       e ∈ [(⟨0, ("cau").data, 3, [], [(("can").data, 0.85)], []⟩ : ErrorCandidate)] ∧
         willApply (0.8 : ℚ) e = true) :=
  C1_apply_corrections_frame (("He cau see it.").data)
    [⟨0, ("cau").data, 3, [], [(("can").data, 0.85)], []⟩] 0.8
    (by decide) (by decide) (by decide)


lemma willApply_nonempty {θ : ℚ} {e : ErrorCandidate} (h : willApply θ e = true) :
    e.suggestions.isEmpty = false := by
  unfold willApply at h
  rcases hs : e.suggestions with _ | ⟨p, rest⟩
  · rw [hs] at h
    simp at h
  · simp [hs]

lemma appliedDesc_strict {errors : List ErrorCandidate} {θ : ℚ}
    (h2 : ∀ e ∈ errors, e.word ≠ [])
    (h3 : errors.Pairwise disjointSpans) :
    (appliedDesc errors θ).Pairwise (fun a b => b.position < a.position) := by
  have hstrong := sortByPosDesc_strong h2 h3
  have hw : ∀ e ∈ sortByPosDesc errors, e.word ≠ [] :=
    fun e he => h2 e ((List.perm_insertionSort _ _).mem_iff.mp he)
  unfold appliedDesc
  refine (hstrong.filter _).imp_of_mem ?_
  intro a b ha hb hab
  have hb2 : b.word ≠ [] := hw b (List.mem_of_mem_filter hb)
  have hb3 : b.word.length ≠ 0 := fun h0 => hb2 (List.eq_nil_of_length_eq_zero h0)
  omega

/-- C9: candidates with an empty suggestion list are skipped by
`_apply_corrections` (removing them changes neither the corrected text nor the
applied count, so a flagged token without suggestions stays byte-identical);
and a page with no text field yields an empty token list, hence zero
dictionary-based error candidates. -/
theorem C9_no_suggestion_and_missing_text :
    (∀ text errors (θ : ℚ),
       (∀ e ∈ errors, matchesSpan text e) →
       (∀ e ∈ errors, e.word ≠ []) →
       errors.Pairwise disjointSpans →
       applyCorrections text errors θ =
         applyCorrections text (errors.filter (fun e => !e.suggestions.isEmpty)) θ) ∧
    (∀ D p, p.markdown = none → dictionaryErrors D p = []) := by
  constructor
  · intro text errors θ h1 h2 h3
    have hperm : List.Perm (sortByPosDesc errors) errors := List.perm_insertionSort _ _
    have hperm2 : List.Perm (sortByPosDesc (errors.filter (fun e => !e.suggestions.isEmpty)))
        (errors.filter (fun e => !e.suggestions.isEmpty)) := List.perm_insertionSort _ _
    have h1f : ∀ e ∈ errors.filter (fun e => !e.suggestions.isEmpty), matchesSpan text e :=
      fun e he => h1 e (List.mem_of_mem_filter he)
    have h2f : ∀ e ∈ errors.filter (fun e => !e.suggestions.isEmpty), e.word ≠ [] :=
      fun e he => h2 e (List.mem_of_mem_filter he)
    have h3f : (errors.filter (fun e => !e.suggestions.isEmpty)).Pairwise disjointSpans :=
      h3.filter _
    have hfe : (errors.filter (fun e => !e.suggestions.isEmpty)).filter (willApply θ) =
        errors.filter (willApply θ) := by
      rw [List.filter_filter]
      apply List.filter_congr
      intro e _
      by_cases hp : willApply θ e = true
      · rw [hp]
        have := willApply_nonempty hp
        simp [this]
      · simp [Bool.eq_false_iff.mpr hp]
    have hA : List.Perm (appliedDesc errors θ) (errors.filter (willApply θ)) :=
      hperm.filter _
    have hA2 : List.Perm (appliedDesc (errors.filter (fun e => !e.suggestions.isEmpty)) θ)
        (errors.filter (willApply θ)) := by
      have := hperm2.filter (willApply θ)
      rwa [hfe] at this
    have hsorted1 := @appliedDesc_strict errors θ h2 h3
    have hsorted2 := @appliedDesc_strict (errors.filter (fun e => !e.suggestions.isEmpty)) θ h2f h3f
    haveI : IsAntisymm ErrorCandidate (fun a b => b.position < a.position) :=
      ⟨fun a b hab hba => absurd hab (by omega)⟩
    have heq : appliedDesc errors θ =
        appliedDesc (errors.filter (fun e => !e.suggestions.isEmpty)) θ :=
      List.eq_of_perm_of_sorted (hA.trans hA2.symm) hsorted1 hsorted2
    unfold applyCorrections
    rw [applyLoop_spec θ (sortByPosDesc errors) text 0 (sortByPosDesc_strong h2 h3)
      (fun e he => h1 e (hperm.mem_iff.mp he))
      (fun e he => h2 e (hperm.mem_iff.mp he))]
    rw [applyLoop_spec θ _ text 0 (sortByPosDesc_strong h2f h3f)
      (fun e he => h1f e (hperm2.mem_iff.mp he))
      (fun e he => h2f e (hperm2.mem_iff.mp he))]
    have hl : (sortByPosDesc errors).filter (willApply θ) = appliedDesc errors θ := rfl
    have hl2 : (sortByPosDesc (errors.filter (fun e => !e.suggestions.isEmpty))).filter
        (willApply θ) = appliedDesc (errors.filter (fun e => !e.suggestions.isEmpty)) θ := rfl
    rw [hl, hl2, heq]
  · intro D p h
    unfold dictionaryErrors
    rw [show pageText p = [] from by simp [pageText, h]]
    rfl

/-- Witness for C9: a candidate with an empty suggestion list is dropped
without changing the result, and a page with a missing text field produces no
dictionary candidates. -/
theorem C9_no_suggestion_and_missing_text_witness :
    (applyCorrections (("He cau see it.").data)
        [⟨0, ("He").data, 0, [], [], []⟩,
         ⟨0, ("cau").data, 3, [], [(("can").data, 0.85)], []⟩] 0.8 =
      applyCorrections (("He cau see it.").data)
        ([⟨0, ("He").data, 0, [], [], []⟩,
          ⟨0, ("cau").data, 3, [], [(("can").data, 0.85)], []⟩].filter
            (fun e => !e.suggestions.isEmpty)) 0.8) ∧
    dictionaryErrors ⟨[], [], none, []⟩ ⟨none, some 3⟩ = [] :=
  ⟨C9_no_suggestion_and_missing_text.1 (("He cau see it.").data)
      [⟨0, ("He").data, 0, [], [], []⟩,
       ⟨0, ("cau").data, 3, [], [(("can").data, 0.85)], []⟩] 0.8
      (by decide) (by decide) (by decide),
   C9_no_suggestion_and_missing_text.2 ⟨[], [], none, []⟩ ⟨none, some 3⟩ rfl⟩


lemma joinSegs_markRuns : ∀ (runs : List Str) (prev : Option Char),
    joinSegs (markRuns prev runs) = runs.foldr (fun s acc => s ++ acc) [] := by
  intro runs
  induction runs with
  | nil => intro prev; rfl
  | cons s rest ih =>
    intro prev
    simp only [markRuns, joinSegs, List.foldr_cons]
    rw [← ih s.getLast?]
    rfl

lemma foldr_append_runsR : ∀ t : Str, (runsR t).foldr (fun s acc => s ++ acc) [] = t := by
  intro t
  induction t with
  | nil => rfl
  | cons c cs ih =>
    unfold runsR
    cases hr : runsR cs with
    | nil =>
      have hcs : cs = [] := by
        rw [hr] at ih
        simpa using ih.symm
      simp [hcs]
    | cons s rs =>
      rw [hr] at ih
      cases s with
      | nil =>
        dsimp only
        simp only [List.foldr_cons, List.nil_append] at ih
        simp [ih]
      | cons d ds =>
        dsimp only
        by_cases hc : (c.isAlpha == d.isAlpha) = true
        · rw [if_pos hc]
          simp only [List.foldr_cons] at ih ⊢
          rw [List.cons_append, ih]
        · rw [if_neg hc]
          simp only [List.foldr_cons] at ih ⊢
          rw [List.singleton_append, ih]

lemma joinSegs_alphaSegs (t : Str) : joinSegs (alphaSegs t) = t := by
  unfold alphaSegs
  rw [joinSegs_markRuns, foldr_append_runsR]

/-- C10: both `correct_text` routines substitute only matched alphabetic word
tokens: the text decomposes into segments whose concatenation is the input,
the output is the same concatenation with only the matched word segments
rewritten through the per-token rule, and the per-token rule leaves a word
unchanged unless its computed correction differs from it and its confidence
reaches the threshold. -/
theorem C10_correct_text_frame (patterns : List (Str × Str))
    (corrections : List (Str × Str × ℚ)) (θ : ℚ) (t : Str) :
    (joinSegs (alphaSegs t) = t) ∧
    (simpleCorrectText patterns t θ =
      joinSegs ((alphaSegs t).map
        (fun s => if s.1 then (s.1, simpleReplaceToken patterns θ s.2) else s))) ∧
    (freqCorrectText corrections t θ =
      joinSegs ((alphaSegs t).map
        (fun s => if s.1 then (s.1, freqReplaceToken corrections θ s.2) else s))) ∧
    (∀ w, (simpleCorrectWord patterns w).2 < θ ∨ (simpleCorrectWord patterns w).1 = w →
       simpleReplaceToken patterns θ w = w) ∧
    (∀ w, (freqCorrectWord corrections w).2 < θ ∨ (freqCorrectWord corrections w).1 = w →
       freqReplaceToken corrections θ w = w) := by
  refine ⟨joinSegs_alphaSegs t, rfl, rfl, ?_, ?_⟩
  · intro w hw
    unfold simpleReplaceToken
    rcases hw with h | h
    · rw [if_neg]
      rintro ⟨hc, _⟩
      exact absurd h (not_lt.mpr hc)
    · by_cases hc : θ ≤ (simpleCorrectWord patterns w).2 ∧ (simpleCorrectWord patterns w).1 ≠ w
      · exact absurd h hc.2
      · rw [if_neg hc]
  · intro w hw
    unfold freqReplaceToken
    rcases hw with h | h
    · rw [if_neg]
      rintro ⟨hc, _⟩
      exact absurd h (not_lt.mpr hc)
    · by_cases hc : θ ≤ (freqCorrectWord corrections w).2 ∧ (freqCorrectWord corrections w).1 ≠ w
      · exact absurd h hc.2
      · rw [if_neg hc]

/-- Witness for C10: the per-token rule leaves `He` unchanged (its correction
equals itself), applied through the frame theorem. -/
theorem C10_correct_text_frame_witness :
    simpleReplaceToken simplePatterns 0.9 (("He").data) = (("He").data) :=
  (C10_correct_text_frame simplePatterns [] 0.9 (("He").data)).2.2.2.1 (("He").data)
    (Or.inr (by decide))


lemma enrichConfusion_word (ctx : PipeCtx) (e : ErrorCandidate) :
    (enrichConfusion ctx e).word = e.word := by
  simp only [enrichConfusion]
  split_ifs <;> rfl

lemma enrichConfusion_position (ctx : PipeCtx) (e : ErrorCandidate) :
    (enrichConfusion ctx e).position = e.position := by
  simp only [enrichConfusion]
  split_ifs <;> rfl

lemma enrichConfusion_suggestions (ctx : PipeCtx) (e : ErrorCandidate) :
    (enrichConfusion ctx e).suggestions =
      e.suggestions ++ findConfusionPatterns ctx.D ctx.confusionPairs e.word := by
  simp only [enrichConfusion]
  split_ifs with h
  · rw [List.isEmpty_iff] at h
    rw [h, List.append_nil]
  · rfl

lemma processPage_flagged_token (ctx : PipeCtx) (p : Page) (w : Str) (pos : ℕ)
    (hmem : (w, pos) ∈ tokenizeWithPositions (pageText p))
    (hbad : checkWord ctx.D w = false) :
    ∃ e ∈ processPage ctx p, e.word = w ∧ e.position = pos ∧
      e.suggestions = mergeSuggestions (findConfusionPatterns ctx.D ctx.confusionPairs w)
        (generateCorrections ctx.D ctx.scoreTrigram ctx.vocabulary ctx.editThreshold w
          (getContextWords ((tokenizeWithPositions (pageText p)).map Prod.fst) w 3)) := by
  have h0 : (⟨pageIdx p, w, pos, [("unknown_word").data], [],
      getContext (pageText p) pos⟩ : ErrorCandidate) ∈ dictionaryErrors ctx.D p := by
    unfold dictionaryErrors
    apply List.mem_filterMap.mpr
    refine ⟨(w, pos), hmem, ?_⟩
    dsimp only
    rw [hbad]
    rfl
  refine ⟨enrichEdit ctx ((tokenizeWithPositions (pageText p)).map Prod.fst)
      (enrichConfusion ctx
        ⟨pageIdx p, w, pos, [("unknown_word").data], [],
          getContext (pageText p) pos⟩), ?_, ?_, ?_, ?_⟩
  · simp only [processPage]
    refine List.mem_append_left _ ?_
    refine List.mem_map_of_mem _ ?_
    refine List.mem_append_left _ ?_
    refine List.mem_append_left _ ?_
    exact List.mem_map_of_mem _ h0
  · rw [show ∀ words e, (enrichEdit ctx words e).word = e.word from fun _ _ => rfl,
      enrichConfusion_word]
  · rw [show ∀ words e, (enrichEdit ctx words e).position = e.position from fun _ _ => rfl,
      enrichConfusion_position]
  · rw [show ∀ words e, (enrichEdit ctx words e).suggestions =
        mergeSuggestions e.suggestions
          (generateCorrections ctx.D ctx.scoreTrigram ctx.vocabulary ctx.editThreshold e.word
            (getContextWords words e.word 3)) from fun _ _ => rfl,
      enrichConfusion_suggestions, enrichConfusion_word]
    rfl


lemma mem_keys_foldl_updateMax (w : Str) (l : List (Str × ℚ)) :
    ∀ acc, (w ∈ (l.foldl updateMax acc).map Prod.fst ↔
      w ∈ acc.map Prod.fst ∨ w ∈ l.map Prod.fst) := by
  induction l with
  | nil => intro acc; simp
  | cons p l ih =>
    intro acc
    rw [List.foldl_cons, ih, mem_keys_updateMax]
    simp only [List.map_cons, List.mem_cons]
    tauto

lemma mem_keys_mergeSuggestions {w : Str} {l1 l2 : List (Str × ℚ)}
    (h : w ∈ (l1 ++ l2).map Prod.fst) :
    w ∈ (mergeSuggestions l1 l2).map Prod.fst := by
  have hperm : List.Perm (mergeSuggestions l1 l2) ((l1 ++ l2).foldl updateMax []) :=
    List.perm_insertionSort _ _
  rw [(hperm.map Prod.fst).mem_iff, mem_keys_foldl_updateMax]
  right
  exact h

/-- C4 (amended): the per-unit pipeline invokes the edit-distance generator on
every token flagged by the dictionary check, whether or not the
confusion-pattern generator produced suggestions, and merges its candidates
into the token's suggestion list. -/
theorem C4_edit_generator_always_runs (ctx : PipeCtx) (p : Page) (w : Str) (pos : ℕ)
    (hmem : (w, pos) ∈ tokenizeWithPositions (pageText p))
    (hbad : checkWord ctx.D w = false) :
    ∃ e ∈ processPage ctx p, e.word = w ∧ e.position = pos ∧
      e.suggestions = mergeSuggestions (findConfusionPatterns ctx.D ctx.confusionPairs w)
        (generateCorrections ctx.D ctx.scoreTrigram ctx.vocabulary ctx.editThreshold w
          (getContextWords ((tokenizeWithPositions (pageText p)).map Prod.fst) w 3)) :=
  processPage_flagged_token ctx p w pos hmem hbad

/-- Witness for C4 (amended) at the concrete pipeline scenario. -/
theorem C4_edit_generator_always_runs_witness :
    ∃ e ∈ processPage cexCtx cexPage, e.word = ("cau").data ∧ e.position = 0 ∧
      e.suggestions =
        mergeSuggestions (findConfusionPatterns cexCtx.D cexCtx.confusionPairs (("cau").data))
          (generateCorrections cexCtx.D cexCtx.scoreTrigram cexCtx.vocabulary
            cexCtx.editThreshold (("cau").data)
            (getContextWords ((tokenizeWithPositions (pageText cexPage)).map Prod.fst)
              (("cau").data) 3)) :=
  C4_edit_generator_always_runs cexCtx cexPage (("cau").data) 0 (by decide) (by decide)

/-- C4 counterexample: in the concrete pipeline scenario the flagged token
`cau` has confusion-pattern suggestions (`can`, twice), and nevertheless the
edit-distance generator's candidate `cat` ends up in its final suggestion
list, so the edit-distance generator is not gated on the absence of
confusion-pattern suggestions. -/
theorem C4_counterexample :
    (findConfusionPatterns cexDict configConfusionPairs (("cau").data)).map Prod.fst =
      [("can").data, ("can").data] ∧
    ∃ e ∈ processPage cexCtx cexPage, e.word = ("cau").data ∧
      (("cat").data) ∈ e.suggestions.map Prod.fst := by
  constructor
  · rfl
  · obtain ⟨e, hm, hword, hpos, hsugg⟩ :=
      processPage_flagged_token cexCtx cexPage (("cau").data) 0 (by decide) (by decide)
    refine ⟨e, hm, hword, ?_⟩
    rw [hsugg]
    apply mem_keys_mergeSuggestions
    rw [List.map_append]
    apply List.mem_append_right
    have hg : (generateCorrections cexCtx.D cexCtx.scoreTrigram cexCtx.vocabulary
        cexCtx.editThreshold (("cau").data)
        (getContextWords ((tokenizeWithPositions (pageText cexPage)).map Prod.fst)
          (("cau").data) 3)).map Prod.fst = [("cat").data] := rfl
    rw [hg]
    exact List.mem_singleton_self _

end Mop
